import Mathlib

/-!
Shallow embedding of the crossword CSP solver (`generate.py`,
class `CrosswordCreator`) and verification of its specification.

Python sets of words are embedded as lists; `self.domains` is embedded as a
total function from slot identifiers (naturals) to lists of words; the
worklist loops (`ac3`) and the recursive search (`backtrack`) are embedded
with an explicit fuel parameter, together with lemmas showing the fuel used
by the embedding is always sufficient, so the fuel-exhaustion outcome is
unreachable on the inputs the program produces.
-/

/-- A word: Python strings are embedded as lists of characters. -/
abbrev Word := List Char

/-- A partial assignment: Python dict from variable to word, embedded as an
association list in insertion order. -/
abbrev Assn := List (Nat × Word)

/-- The domain store `self.domains`: mapping from each slot to its current
candidate word list. -/
abbrev Domains := Nat → List Word

/-- The puzzle model (the `Crossword` object): slot identifiers, each slot's
fixed length, the overlap relation, and the vocabulary. -/
structure Crossword where
  vars : List Nat
  length : Nat → Nat
  overlaps : Nat → Nat → Option (Nat × Nat)
  words : List Word

/-- Character of `w` at index `i`; Python `w[i]` (total, with a default that
is never hit on the in-range indices the program uses). -/
def charAt (w : Word) (i : Nat) : Char :=
  w.getD i ' '

/-- Modelled from the spec: the Neighbor relation of the Puzzle Model
(`crossword.py`, which is not part of the solver source): "derived from the
overlap relation — the set of slots overlapping a given slot (excluding
self)". -/
def neighbors (c : Crossword) (x : Nat) : List Nat :=
  c.vars.filter (fun y => y != x && (c.overlaps x y).isSome)

/-- Update the domain store at one slot. -/
def updateD (d : Domains) (x : Nat) (ws : List Word) : Domains :=
  fun v => if v = x then ws else d v

/-- `self.domains` as built by `__init__`: every variable mapped to a copy of
the full vocabulary. -/
def initialDomains (c : Crossword) : Domains :=
  fun _ => c.words

/-- `enforce_node_consistency`: keep in each variable's domain only the words
whose length equals the variable's length. -/
def enforce_node_consistency (c : Crossword) (d : Domains) : Domains :=
  fun v => if v ∈ c.vars then (d v).filter (fun w => w.length == c.length v) else d v

/-- Whether `w` has a supporting word in `domains[y]` agreeing at the overlap
offsets `(i, j)`. -/
def hasSupportB (d : Domains) (y i j : Nat) (w : Word) : Bool :=
  (d y).any (fun w2 => charAt w i == charAt w2 j)

/-- `revise(x, y)`: drop from `domains[x]` every word with no supporting word
in `domains[y]` at the overlap offsets; also return whether anything was
removed. -/
def revise (c : Crossword) (d : Domains) (x y : Nat) : Domains × Bool :=
  match c.overlaps x y with
  | none => (d, false)
  | some (i, j) =>
    let keep := (d x).filter (hasSupportB d y i j)
    if keep.length = (d x).length then (d, false) else (updateD d x keep, true)

/-- The neighbors of `x` other than `y` (`self.crossword.neighbors(x) - {y}`). -/
def neighborsMinus (c : Crossword) (x y : Nat) : List Nat :=
  (neighbors c x).filter (fun z => z != y)

/-- The `ac3` worklist loop, with fuel.  Pops the queue FIFO, revises the arc;
returns `(domains, false)` the moment a revision empties a domain, re-enqueues
`(z, x)` for the other neighbors `z` of a revised `x`, and returns
`(domains, true)` when the queue drains. -/
def ac3F (c : Crossword) : Nat → Domains → List (Nat × Nat) → Option (Domains × Bool)
  | 0, _, _ => none
  | _ + 1, d, [] => some (d, true)
  | f + 1, d, (x, y) :: rest =>
    let r := revise c d x y
    if r.2 then
      if (r.1 x).isEmpty then some (r.1, false)
      else ac3F c f r.1 (rest ++ (neighborsMinus c x y).map (fun z => (z, x)))
    else ac3F c f r.1 rest

/-- All arcs of the puzzle: every ordered pair of slots with a defined
overlap (the seed of `ac3` when no explicit arc list is supplied). -/
def allArcs (c : Crossword) : List (Nat × Nat) :=
  ((c.vars.map (fun x => c.vars.map (fun y => (x, y)))).flatten).filter
    (fun p => (c.overlaps p.1 p.2).isSome)

/-- Total candidate count of the domain store over the puzzle's slots. -/
def domSize (c : Crossword) (d : Domains) : Nat :=
  (c.vars.map (fun v => (d v).length)).sum

/-- Fuel that always suffices for the `ac3` worklist loop. -/
def ac3Fuel (c : Crossword) (d : Domains) (q : List (Nat × Nat)) : Nat :=
  q.length + (domSize c d + 1) * (c.vars.length + 1)

/-- The initial worklist of `ac3`: the supplied arcs if that list is truthy
(Python `if arcs:` — a non-empty list), otherwise every arc of the puzzle. -/
def seedQueue (c : Crossword) (arcs : Option (List (Nat × Nat))) : List (Nat × Nat) :=
  match arcs with
  | some l => if l.isEmpty then allArcs c else l
  | none => allArcs c

/-- `ac3(arcs)`: seed the worklist and run the loop. -/
def ac3 (c : Crossword) (d : Domains) (arcs : Option (List (Nat × Nat))) :
    Option (Domains × Bool) :=
  ac3F c (ac3Fuel c d (seedQueue c arcs)) d (seedQueue c arcs)

/-- Python dict lookup on the association list. -/
def alookup (a : Assn) (v : Nat) : Option Word :=
  match a with
  | [] => none
  | (k, w) :: rest => if k = v then some w else alookup rest v

/-- The assigned slots, in insertion order. -/
def keysOf (a : Assn) : List Nat :=
  a.map Prod.fst

/-- `assignment_complete`: the number of assigned slots equals the number of
slots (`len(self.domains) == len(assignment)`). -/
def assignment_complete (c : Crossword) (a : Assn) : Bool :=
  c.vars.length == a.length

/-- `consistent(assignment)`: values pairwise distinct, each word of its
slot's length, and all overlaps with assigned neighbors agreeing. -/
def consistent (c : Crossword) (a : Assn) : Bool :=
  decide ((a.map Prod.snd).Nodup) &&
  a.all (fun p =>
    (c.length p.1 == p.2.length) &&
    (neighbors c p.1).all (fun y =>
      match c.overlaps p.1 y with
      | some (i, j) =>
        match alookup a y with
        | some wy => charAt wy j == charAt p.2 i
        | none => true
      | none => true))

/-- Insert into a list, before the first element that is not `le`-smaller
(the insertion step of a stable sort). -/
def insertLe {α : Type} (le : α → α → Bool) (x : α) : List α → List α
  | [] => [x]
  | y :: ys => if le x y then x :: y :: ys else y :: insertLe le x ys

/-- Stable insertion sort: the embedding of Python's stable `sorted`/`sort`. -/
def isort {α : Type} (le : α → α → Bool) : List α → List α
  | [] => []
  | x :: xs => insertLe le x (isort le xs)

/-- Number of candidate words a word `w` for `var` would rule out among the
unassigned neighbors of `var` (the counter of `order_domain_values`): over
each unassigned neighbor's domain, the words equal to `w` or in conflict at
the overlap offsets. -/
def elimCount (c : Crossword) (d : Domains) (a : Assn) (var : Nat) (w : Word) : Nat :=
  (((neighbors c var).filter (fun n => (alookup a n).isNone)).map (fun n =>
    match c.overlaps var n with
    | some (i, j) =>
      ((d n).filter (fun w2 => w == w2 || !(charAt w i == charAt w2 j))).length
    | none => 0)).sum

/-- `order_domain_values`: the domain of `var` sorted ascending (stably) by
the number of values each word rules out for unassigned neighbors. -/
def order_domain_values (c : Crossword) (d : Domains) (a : Assn) (var : Nat) : List Word :=
  isort (fun w1 w2 => decide (elimCount c d a var w1 ≤ elimCount c d a var w2)) (d var)

/-- The sort key ordering of `select_unassigned_variable`: fewest remaining
domain values first, ties broken by most neighbors. -/
def varKeyLe (c : Crossword) (d : Domains) (v1 v2 : Nat) : Bool :=
  decide ((d v1).length < (d v2).length) ||
  (decide ((d v1).length = (d v2).length) &&
   decide ((neighbors c v2).length ≤ (neighbors c v1).length))

/-- `select_unassigned_variable`: first element of the unassigned slots
sorted by (domain size, degree descending); `none` embeds the out-of-range
`remaining[0]` on an empty remainder, which the search never produces. -/
def select_unassigned_variable (c : Crossword) (d : Domains) (a : Assn) : Option Nat :=
  (isort (varKeyLe c d) (c.vars.filter (fun v => (alookup a v).isNone))).head?

/-- The candidate-word loop of `backtrack`: try each word in order; on a
consistent tentative binding run `ac3` on the arcs into the chosen slot and
recurse (`recur` is the recursive call at the remaining fuel); a falsy result
(None, or an empty dict) falls through to the next word after unbinding. -/
def tryWords (c : Crossword) (recur : Domains → Assn → Option (Option Assn × Domains))
    (a : Assn) (var : Nat) : Domains → List Word → Option (Option Assn × Domains)
  | d, [] => some (none, d)
  | d, w :: ws =>
    let a2 := a ++ [(var, w)]
    if consistent c a2 then
      match ac3 c d (some ((neighbors c var).map (fun nb => (nb, var)))) with
      | none => none
      | some (d2, _) =>
        match recur d2 a2 with
        | none => none
        | some (some r, d3) =>
          if r.isEmpty then tryWords c recur a var d3 ws else some (some r, d3)
        | some (none, d3) => tryWords c recur a var d3 ws
    else tryWords c recur a var d ws

/-- `backtrack(assignment)`, with fuel: return the assignment if complete,
otherwise choose an unassigned slot and try its ordered candidate words. -/
def backtrackF (c : Crossword) : Nat → Domains → Assn → Option (Option Assn × Domains)
  | 0, _, _ => none
  | f + 1, d, a =>
    if assignment_complete c a then some (some a, d)
    else
      match select_unassigned_variable c d a with
      | none => none
      | some var => tryWords c (backtrackF c f) a var d (order_domain_values c d a var)

/-- Fuel that always suffices for `backtrack` started on the empty
assignment. -/
def solveFuel (c : Crossword) : Nat :=
  c.vars.length + 1

/-- `solve()`: enforce node consistency, run full `ac3` (its Boolean result
is discarded), then backtrack from the empty assignment; returns the final
result together with the final domain store. -/
def solve (c : Crossword) : Option (Option Assn × Domains) :=
  let d0 := enforce_node_consistency c (initialDomains c)
  match ac3 c d0 none with
  | none => none
  | some (d1, _) => backtrackF c (solveFuel c) d1 []

/-- The assignment (or no-solution value `none`) returned by `solve()`. -/
def solveAssignment (c : Crossword) : Option (Option Assn) :=
  (solve c).map Prod.fst

/-- `w` lacks support for the arc `(x, y)`: the overlap is defined and no
word of `domains[y]` agrees with `w` at the overlap offsets. -/
def lacksSupport (c : Crossword) (d : Domains) (x y : Nat) (w : Word) : Bool :=
  match c.overlaps x y with
  | some (i, j) => !(hasSupportB d y i j w)
  | none => false

/-- The domain store is arc consistent: no word of any slot's domain lacks
support on any arc between slots. -/
def ArcCons (c : Crossword) (d : Domains) : Prop :=
  ∀ x ∈ c.vars, ∀ y ∈ c.vars, ∀ w ∈ d x, lacksSupport c d x y w = false

/-- Agreement of a total candidate solution at one overlap, as a Boolean. -/
def overlapAgrees (c : Crossword) (sol : Nat → Word) (x y : Nat) : Bool :=
  match c.overlaps x y with
  | some (i, j) => charAt (sol x) i == charAt (sol y) j
  | none => true

/-- A complete satisfying assignment of the puzzle, given as a total map
`sol` on slots: each slot gets a vocabulary word of the slot's length, slots
get pairwise distinct words, and every overlap agrees. -/
def IsSolution (c : Crossword) (sol : Nat → Word) : Prop :=
  (∀ v ∈ c.vars, sol v ∈ c.words ∧ (sol v).length = c.length v) ∧
  (∀ v1 ∈ c.vars, ∀ v2 ∈ c.vars, v1 ≠ v2 → sol v1 ≠ sol v2) ∧
  (∀ x ∈ c.vars, ∀ y ∈ c.vars, overlapAgrees c sol x y = true)

/-- Well-formedness of the assignment under construction: assigned slots are
pairwise distinct puzzle slots. -/
def KeysOK (c : Crossword) (a : Assn) : Prop :=
  (keysOf a).Nodup ∧ ∀ v ∈ keysOf a, v ∈ c.vars

/-- Every slot's candidate under `sol` is still in its domain. -/
def Supports (c : Crossword) (d : Domains) (sol : Nat → Word) : Prop :=
  ∀ v ∈ c.vars, sol v ∈ d v

/-- The assignment agrees with the total candidate solution `sol`. -/
def Agrees (sol : Nat → Word) (a : Assn) : Prop :=
  ∀ p ∈ a, p.2 = sol p.1

/-- Number of still-unassigned slots. -/
def unCount (c : Crossword) (a : Assn) : Nat :=
  (c.vars.filter (fun v => (alookup a v).isNone)).length

/-- Fixture: two crossing one-letter slots whose domains are not arc
consistent (slot 1 still holds a word with no support in slot 0). -/
def cxB : Crossword where
  vars := [0, 1]
  length := fun _ => 1
  overlaps := fun x y =>
    if (x == 0 && y == 1) || (x == 1 && y == 0) then some (0, 0) else none
  words := [['a'], ['b']]

/-- Fixture domains for `cxB`, deliberately not arc consistent. -/
def dxB : Domains :=
  fun v => if v = 0 then [['a']] else if v = 1 then [['a'], ['b']] else []

/-- Fixture: a single slot of length 3 with a vocabulary containing only a
word of length 2, so node consistency empties the slot's domain. -/
def cxShort : Crossword where
  vars := [0]
  length := fun _ => 3
  overlaps := fun _ _ => none
  words := [['a', 'b']]

/-- Fixture: a single slot of length 1 with a fitting one-word vocabulary. -/
def cxOne : Crossword where
  vars := [0]
  length := fun _ => 1
  overlaps := fun _ _ => none
  words := [['a']]

/-- Fixture domains for `cxOne`. -/
def dxOne : Domains :=
  fun _ => [['a']]

/-- Fixture: two crossing three-letter slots (the spec's concrete
scenario 2), solvable as across CAR, down RAT. -/
def cxCar : Crossword where
  vars := [0, 1]
  length := fun _ => 3
  overlaps := fun x y =>
    if x == 0 && y == 1 then some (2, 0)
    else if x == 1 && y == 0 then some (0, 2) else none
  words := [['c','a','r'], ['r','a','t'], ['c','a','t']]

/-- The known solution of `cxCar`. -/
def solCar : Nat → Word :=
  fun v => if v = 0 then ['c','a','r'] else ['r','a','t']

/-- The assignment `solve` finds for `cxCar`. -/
def rCar : Assn :=
  [(0, ['c','a','r']), (1, ['r','a','t'])]

/-- Fixture domains for `cxB` under which AC-3 must fail: the two crossing
one-letter slots hold conflicting single candidates. -/
def dxConf : Domains :=
  fun v => if v = 0 then [['a']] else if v = 1 then [['b']] else []

/-! ## List helpers -/

theorem filter_length_eq_iff {α : Type} (p : α → Bool) :
    ∀ l : List α, ((l.filter p).length = l.length ↔ ∀ x ∈ l, p x = true) := by
  intro l
  induction l with
  | nil => simp
  | cons x xs ih =>
    by_cases hx : p x = true
    · simp [hx, ih]
    · simp only [Bool.not_eq_true] at hx
      rw [List.filter_cons_of_neg (by simp [hx])]
      constructor
      · intro h
        have := List.length_filter_le p xs
        simp only [List.length_cons] at h
        omega
      · intro h
        have := h x (by simp)
        simp [hx] at this

theorem mem_insertLe {α : Type} (le : α → α → Bool) (x : α) :
    ∀ l : List α, ∀ z, z ∈ insertLe le x l ↔ z = x ∨ z ∈ l := by
  intro l
  induction l with
  | nil => simp [insertLe]
  | cons y ys ih =>
    intro z
    simp only [insertLe]
    split
    · simp [List.mem_cons]
    · simp only [List.mem_cons, ih]
      tauto

theorem perm_insertLe {α : Type} (le : α → α → Bool) (x : α) :
    ∀ l : List α, (insertLe le x l).Perm (x :: l) := by
  intro l
  induction l with
  | nil => simp [insertLe]
  | cons y ys ih =>
    simp only [insertLe]
    split
    · exact List.Perm.refl _
    · exact ((ih.cons y).trans (List.Perm.swap x y ys))

theorem perm_isort {α : Type} (le : α → α → Bool) :
    ∀ l : List α, (isort le l).Perm l := by
  intro l
  induction l with
  | nil => simp [isort]
  | cons x xs ih =>
    exact (perm_insertLe le x (isort le xs)).trans (ih.cons x)

theorem mem_isort {α : Type} (le : α → α → Bool) (l : List α) (z : α) :
    z ∈ isort le l ↔ z ∈ l :=
  (perm_isort le l).mem_iff

theorem pairwise_insertLe {α : Type} (le : α → α → Bool)
    (htot : ∀ a b, le a b = true ∨ le b a = true)
    (htrans : ∀ a b e, le a b = true → le b e = true → le a e = true)
    (x : α) :
    ∀ l : List α, l.Pairwise (fun a b => le a b = true) →
      (insertLe le x l).Pairwise (fun a b => le a b = true) := by
  intro l
  induction l with
  | nil => simp [insertLe]
  | cons y ys ih =>
    intro hp
    rcases List.pairwise_cons.mp hp with ⟨hy, hys⟩
    simp only [insertLe]
    split
    · rename_i hxy
      refine List.pairwise_cons.mpr ⟨?_, hp⟩
      intro z hz
      rcases List.mem_cons.mp hz with rfl | hz
      · exact hxy
      · exact htrans x y z hxy (hy z hz)
    · rename_i hxy
      refine List.pairwise_cons.mpr ⟨?_, ih hys⟩
      intro z hz
      rcases (mem_insertLe le x ys z).mp hz with rfl | hz
      · rcases htot z y with h | h
        · exact absurd h hxy
        · exact h
      · exact hy z hz

theorem pairwise_isort {α : Type} (le : α → α → Bool)
    (htot : ∀ a b, le a b = true ∨ le b a = true)
    (htrans : ∀ a b e, le a b = true → le b e = true → le a e = true) :
    ∀ l : List α, (isort le l).Pairwise (fun a b => le a b = true) := by
  intro l
  induction l with
  | nil => simp [isort]
  | cons x xs ih => exact pairwise_insertLe le htot htrans x (isort le xs) ih

/-! ## Assignment lookup -/

theorem alookup_eq_none {a : Assn} {v : Nat} :
    alookup a v = none ↔ v ∉ keysOf a := by
  induction a with
  | nil => simp [alookup, keysOf]
  | cons p rest ih =>
    obtain ⟨k, w⟩ := p
    by_cases hk : k = v
    · subst hk
      simp [alookup, keysOf]
    · simp [alookup, hk, ih, keysOf, Ne.symm hk]

theorem alookup_mem {a : Assn} {v : Nat} {w : Word} (h : alookup a v = some w) :
    (v, w) ∈ a := by
  induction a with
  | nil => simp [alookup] at h
  | cons p rest ih =>
    obtain ⟨k, u⟩ := p
    have h' : (if k = v then some u else alookup rest v) = some w := h
    by_cases hk : k = v
    · subst hk
      rw [if_pos rfl] at h'
      obtain rfl := Option.some.inj h'
      simp
    · rw [if_neg hk] at h'
      exact List.mem_cons_of_mem _ (ih h')

theorem alookup_append (a b : Assn) (v : Nat) :
    alookup (a ++ b) v =
      match alookup a v with
      | some w => some w
      | none => alookup b v := by
  induction a with
  | nil => simp [alookup]
  | cons p rest ih =>
    obtain ⟨k, u⟩ := p
    by_cases hk : k = v
    · subst hk
      simp [alookup]
    · simp [alookup, hk, ih]

theorem alookup_snoc (a : Assn) (var : Nat) (w : Word) (v : Nat) :
    alookup (a ++ [(var, w)]) v =
      match alookup a v with
      | some u => some u
      | none => if var = v then some w else none := by
  rw [alookup_append]
  rfl

theorem mem_alookup {a : Assn} (hnd : (keysOf a).Nodup) {v : Nat} {w : Word}
    (h : (v, w) ∈ a) : alookup a v = some w := by
  induction a with
  | nil => simp at h
  | cons p rest ih =>
    obtain ⟨k, u⟩ := p
    rcases List.mem_cons.mp h with heq | hmem
    · obtain ⟨rfl, rfl⟩ := Prod.mk.inj heq
      simp [alookup]
    · have hk : k ≠ v := by
        rintro rfl
        have : k ∈ keysOf rest := by
          simpa [keysOf] using (List.mem_map_of_mem Prod.fst hmem)
        simp only [keysOf, List.map_cons, List.nodup_cons] at hnd
        exact hnd.1 this
      simp only [alookup, if_neg hk]
      exact ih (by simpa [keysOf] using hnd.of_cons) hmem

/-! ## Node consistency and revision -/

theorem hasSupportB_iff {d : Domains} {y i j : Nat} {w : Word} :
    hasSupportB d y i j w = true ↔ ∃ w2 ∈ d y, charAt w i = charAt w2 j := by
  simp [hasSupportB, List.any_eq_true, beq_iff_eq]

theorem enc_mem {c : Crossword} {d : Domains} {v : Nat} (hv : v ∈ c.vars) (w : Word) :
    w ∈ enforce_node_consistency c d v ↔ (w ∈ d v ∧ w.length = c.length v) := by
  simp [enforce_node_consistency, hv, List.mem_filter, beq_iff_eq]

theorem enc_subset {c : Crossword} {d : Domains} (v : Nat) (w : Word)
    (h : w ∈ enforce_node_consistency c d v) : w ∈ d v := by
  by_cases hv : v ∈ c.vars
  · exact ((enc_mem hv w).mp h).1
  · simpa [enforce_node_consistency, hv] using h

theorem updateD_self (d : Domains) (x : Nat) (ws : List Word) :
    updateD d x ws x = ws := by
  simp [updateD]

theorem updateD_ne (d : Domains) (x : Nat) (ws : List Word) {v : Nat} (h : v ≠ x) :
    updateD d x ws v = d v := by
  simp [updateD, h]

theorem revise_of_none {c : Crossword} {d : Domains} {x y : Nat}
    (h : c.overlaps x y = none) : revise c d x y = (d, false) := by
  simp [revise, h]

theorem revise_of_some {c : Crossword} {d : Domains} {x y i j : Nat}
    (h : c.overlaps x y = some (i, j)) :
    revise c d x y =
      if ((d x).filter (hasSupportB d y i j)).length = (d x).length
      then (d, false)
      else (updateD d x ((d x).filter (hasSupportB d y i j)), true) := by
  simp [revise, h]

theorem revise_fst_apply_ne {c : Crossword} {d : Domains} {x y v : Nat}
    (hv : v ≠ x) : (revise c d x y).1 v = d v := by
  rcases h : c.overlaps x y with _ | ⟨i, j⟩
  · rw [revise_of_none h]
  · rw [revise_of_some h]
    split
    · rfl
    · simp [updateD, hv]

theorem revise_fst_subset {c : Crossword} {d : Domains} (x y v : Nat) (w : Word)
    (hw : w ∈ (revise c d x y).1 v) : w ∈ d v := by
  by_cases hv : v = x
  · rcases h : c.overlaps x y with _ | ⟨i, j⟩
    · rw [revise_of_none h] at hw
      exact hw
    · rw [revise_of_some h] at hw
      split at hw
      · exact hw
      · have hw2 : w ∈ updateD d x ((d x).filter (hasSupportB d y i j)) v := hw
        rw [hv, updateD_self] at hw2
        rw [hv]
        exact (List.mem_filter.mp hw2).1
  · rw [revise_fst_apply_ne hv] at hw
    exact hw

theorem revise_mem_fst {c : Crossword} {d : Domains} {x y i j : Nat}
    (h : c.overlaps x y = some (i, j)) (w : Word) :
    w ∈ (revise c d x y).1 x ↔
      (w ∈ d x ∧ ∃ w2 ∈ d y, charAt w i = charAt w2 j) := by
  rw [revise_of_some h]
  split
  · rename_i hlen
    have hall := (filter_length_eq_iff _ _).mp hlen
    simp only []
    constructor
    · intro hw
      exact ⟨hw, hasSupportB_iff.mp (hall w hw)⟩
    · exact fun hw => hw.1
  · simp [updateD_self, List.mem_filter, hasSupportB_iff]

theorem revise_snd_true_iff {c : Crossword} {d : Domains} {x y i j : Nat}
    (h : c.overlaps x y = some (i, j)) :
    (revise c d x y).2 = true ↔
      ∃ w ∈ d x, ∀ w2 ∈ d y, charAt w i ≠ charAt w2 j := by
  have hiff : ∀ w : Word, hasSupportB d y i j w = false ↔
      (∀ w2 ∈ d y, charAt w i ≠ charAt w2 j) := by
    intro w
    rw [← Bool.not_eq_true, hasSupportB_iff]
    push_neg
    rfl
  rw [revise_of_some h]
  split
  · rename_i hlen
    have hall := (filter_length_eq_iff _ _).mp hlen
    simp only [Bool.false_eq_true, false_iff]
    rintro ⟨w, hw, hno⟩
    have := (hiff w).mpr hno
    rw [hall w hw] at this
    cases this
  · rename_i hlen
    simp only [true_iff]
    have : ¬ ∀ w ∈ d x, hasSupportB d y i j w = true :=
      fun hall => hlen ((filter_length_eq_iff _ _).mpr hall)
    push_neg at this
    obtain ⟨w, hw, hns⟩ := this
    simp only [Bool.not_eq_true] at hns
    exact ⟨w, hw, (hiff w).mp hns⟩

theorem revise_snd_false {c : Crossword} {d : Domains} {x y : Nat}
    (h2 : (revise c d x y).2 = false) : (revise c d x y).1 = d := by
  rcases h : c.overlaps x y with _ | ⟨i, j⟩
  · rw [revise_of_none h]
  · rw [revise_of_some h] at h2 ⊢
    split at h2
    · rename_i hc
      rw [if_pos hc]
    · exact absurd h2 (by simp)

theorem revise_snd_true_lt {c : Crossword} {d : Domains} {x y : Nat}
    (h2 : (revise c d x y).2 = true) :
    ((revise c d x y).1 x).length < (d x).length := by
  rcases h : c.overlaps x y with _ | ⟨i, j⟩
  · rw [revise_of_none h] at h2
    cases h2
  · rw [revise_of_some h] at h2 ⊢
    split at h2
    · cases h2
    · rename_i hlen
      rw [if_neg hlen]
      have hw2 : ((updateD d x ((d x).filter (hasSupportB d y i j)), true) :
          Domains × Bool).1 x = (d x).filter (hasSupportB d y i j) :=
        updateD_self d x _
      rw [hw2]
      exact lt_of_le_of_ne (List.length_filter_le _ _) hlen

/-! ## Domain-size accounting -/

theorem sum_map_congr (d1 d2 : Domains) :
    ∀ l : List Nat, (∀ v ∈ l, d1 v = d2 v) →
      (l.map (fun v => (d1 v).length)).sum = (l.map (fun v => (d2 v).length)).sum := by
  intro l
  induction l with
  | nil => simp
  | cons hd tl ih =>
    intro h
    simp only [List.map_cons, List.sum_cons]
    rw [h hd (by simp), ih (fun v hv => h v (List.mem_cons_of_mem _ hv))]

theorem sum_update (d : Domains) (x : Nat) (ws : List Word) :
    ∀ l : List Nat, l.Nodup → x ∈ l →
      (l.map (fun v => ((updateD d x ws) v).length)).sum + (d x).length
        = (l.map (fun v => (d v).length)).sum + ws.length := by
  intro l
  induction l with
  | nil => simp
  | cons hd tl ih =>
    intro hnd hx
    rcases List.mem_cons.mp hx with rfl | hx'
    · have hxtl : x ∉ tl := (List.nodup_cons.mp hnd).1
      have hcong : ∀ v ∈ tl, (updateD d x ws) v = d v := by
        intro v hv
        have hne : v ≠ x := by
          rintro rfl
          exact hxtl hv
        exact updateD_ne d x ws hne
      have hs := sum_map_congr (updateD d x ws) d tl hcong
      simp only [List.map_cons, List.sum_cons, hs, updateD_self]
      omega
    · have hhd : hd ≠ x := by
        rintro rfl
        exact (List.nodup_cons.mp hnd).1 hx'
      simp only [List.map_cons, List.sum_cons, updateD_ne d x ws hhd]
      have := ih (List.nodup_cons.mp hnd).2 hx'
      omega

theorem domSize_update {c : Crossword} (d : Domains) {x : Nat} (ws : List Word)
    (hnd : c.vars.Nodup) (hx : x ∈ c.vars) :
    domSize c (updateD d x ws) + (d x).length = domSize c d + ws.length :=
  sum_update d x ws c.vars hnd hx

theorem domSize_revise_lt {c : Crossword} {d : Domains} {x y : Nat}
    (hnd : c.vars.Nodup) (hx : x ∈ c.vars)
    (h2 : (revise c d x y).2 = true) :
    domSize c (revise c d x y).1 < domSize c d := by
  have hlt := revise_snd_true_lt h2
  rcases h : c.overlaps x y with _ | ⟨i, j⟩
  · rw [revise_of_none h] at h2
    cases h2
  · rw [revise_of_some h] at h2 ⊢
    split at h2
    · cases h2
    · rename_i hlen
      rw [if_neg hlen]
      have hlt2 : ((d x).filter (hasSupportB d y i j)).length < (d x).length :=
        lt_of_le_of_ne (List.length_filter_le _ _) hlen
      have hupd := @domSize_update c d x ((d x).filter (hasSupportB d y i j)) hnd hx
      have hgoal : domSize c ((updateD d x ((d x).filter (hasSupportB d y i j)), true) :
          Domains × Bool).1 = domSize c (updateD d x ((d x).filter (hasSupportB d y i j))) :=
        rfl
      rw [hgoal]
      omega

/-! ## The AC-3 worklist loop -/

theorem neighbors_mem {c : Crossword} {x z : Nat} (h : z ∈ neighbors c x) :
    z ∈ c.vars ∧ z ≠ x ∧ (c.overlaps x z).isSome := by
  have := List.mem_filter.mp h
  refine ⟨this.1, ?_, ?_⟩
  · have := this.2
    simp only [Bool.and_eq_true, bne_iff_ne, ne_eq] at this
    exact this.1
  · have := this.2
    simp only [Bool.and_eq_true] at this
    exact this.2

theorem neighborsMinus_mem {c : Crossword} {x y z : Nat} (h : z ∈ neighborsMinus c x y) :
    z ∈ neighbors c x :=
  (List.mem_filter.mp h).1

theorem neighbors_length_le (c : Crossword) (x : Nat) :
    (neighbors c x).length ≤ c.vars.length :=
  List.length_filter_le _ _

theorem neighborsMinus_length_le (c : Crossword) (x y : Nat) :
    (neighborsMinus c x y).length ≤ c.vars.length :=
  le_trans (List.length_filter_le _ _) (neighbors_length_le c x)

theorem allArcs_mem {c : Crossword} {p : Nat × Nat} (h : p ∈ allArcs c) :
    p.1 ∈ c.vars ∧ p.2 ∈ c.vars ∧ (c.overlaps p.1 p.2).isSome := by
  obtain ⟨hmem, hsome⟩ := List.mem_filter.mp h
  rw [List.mem_flatten] at hmem
  obtain ⟨l, hl, hpl⟩ := hmem
  rw [List.mem_map] at hl
  obtain ⟨x, hx, rfl⟩ := hl
  rw [List.mem_map] at hpl
  obtain ⟨y, hy, rfl⟩ := hpl
  exact ⟨hx, hy, hsome⟩

theorem ac3F_isSome {c : Crossword} (hnd : c.vars.Nodup) :
    ∀ f d q, (∀ p ∈ q, p.1 ∈ c.vars) →
      f ≥ ac3Fuel c d q → (ac3F c f d q).isSome := by
  intro f
  induction f with
  | zero =>
    intro d q hq hf
    exfalso
    unfold ac3Fuel at hf
    have h1 : 0 < (domSize c d + 1) * (c.vars.length + 1) :=
      Nat.mul_pos (Nat.succ_pos _) (Nat.succ_pos _)
    omega
  | succ f ih =>
    intro d q hq hf
    match q with
    | [] => simp [ac3F]
    | (x, y) :: rest =>
      have hx : x ∈ c.vars := (hq (x, y) (by simp))
      by_cases hr : (revise c d x y).2 = true
      · by_cases he : ((revise c d x y).1 x).isEmpty = true
        · simp [ac3F, hr, he]
        · simp only [ac3F, hr, if_true, he, if_false, Bool.false_eq_true]
          apply ih
          · intro p hp
            rcases List.mem_append.mp hp with hp | hp
            · exact hq p (List.mem_cons_of_mem _ hp)
            · rw [List.mem_map] at hp
              obtain ⟨z, hz, rfl⟩ := hp
              exact (neighbors_mem (neighborsMinus_mem hz)).1
          · have hS2 : domSize c (revise c d x y).1 < domSize c d :=
              domSize_revise_lt hnd hx hr
            have hmul : (domSize c (revise c d x y).1 + 1) * (c.vars.length + 1)
                + (c.vars.length + 1) ≤ (domSize c d + 1) * (c.vars.length + 1) := by
              have h1 : domSize c (revise c d x y).1 + 2 ≤ domSize c d + 1 := by omega
              calc (domSize c (revise c d x y).1 + 1) * (c.vars.length + 1)
                    + (c.vars.length + 1)
                  = (domSize c (revise c d x y).1 + 2) * (c.vars.length + 1) := by ring
                _ ≤ (domSize c d + 1) * (c.vars.length + 1) :=
                    Nat.mul_le_mul_right _ h1
            have hqlen : (rest ++ (neighborsMinus c x y).map (fun z => (z, x))).length
                ≤ rest.length + c.vars.length := by
              rw [List.length_append, List.length_map]
              have := neighborsMinus_length_le c x y
              omega
            unfold ac3Fuel at hf ⊢
            simp only [List.length_cons] at hf
            omega
      · simp only [Bool.not_eq_true] at hr
        simp only [ac3F, hr, Bool.false_eq_true, if_false]
        rw [revise_snd_false hr]
        apply ih
        · exact fun p hp => hq p (List.mem_cons_of_mem _ hp)
        · unfold ac3Fuel at hf ⊢
          simp only [List.length_cons] at hf
          omega

theorem ac3F_subset {c : Crossword} :
    ∀ f d q d2 b, ac3F c f d q = some (d2, b) → ∀ v w, w ∈ d2 v → w ∈ d v := by
  intro f
  induction f with
  | zero =>
    intro d q d2 b h
    cases h
  | succ f ih =>
    intro d q d2 b h v w hw
    match q with
    | [] =>
      obtain ⟨rfl, rfl⟩ : d = d2 ∧ true = b := by
        have : (some (d, true) : Option (Domains × Bool)) = some (d2, b) := h
        have := Option.some.inj this
        exact ⟨congrArg Prod.fst this, congrArg Prod.snd this⟩
      exact hw
    | (x, y) :: rest =>
      by_cases hr : (revise c d x y).2 = true
      · by_cases he : ((revise c d x y).1 x).isEmpty = true
        · simp only [ac3F, hr, if_true, he] at h
          obtain ⟨rfl, rfl⟩ : (revise c d x y).1 = d2 ∧ false = b := by
            have := Option.some.inj h
            exact ⟨congrArg Prod.fst this, congrArg Prod.snd this⟩
          exact revise_fst_subset x y v w hw
        · simp only [ac3F, hr, if_true, he, Bool.false_eq_true, if_false] at h
          exact revise_fst_subset x y v w (ih _ _ _ _ h v w hw)
      · simp only [Bool.not_eq_true] at hr
        simp only [ac3F, hr, Bool.false_eq_true, if_false] at h
        rw [revise_snd_false hr] at h
        exact ih _ _ _ _ h v w hw

theorem ac3F_run {c : Crossword} :
    ∀ f d q, (∀ p ∈ q, p.1 ∈ c.vars) → ∀ d2 b, ac3F c f d q = some (d2, b) →
      (b = false → ∃ v ∈ c.vars, d2 v = []) ∧
      (b = true → ∀ v, d v ≠ [] → d2 v ≠ []) := by
  intro f
  induction f with
  | zero =>
    intro d q hq d2 b h
    cases h
  | succ f ih =>
    intro d q hq d2 b h
    match q with
    | [] =>
      obtain ⟨h1, h2⟩ : d = d2 ∧ true = b := by
        have := Option.some.inj h
        exact ⟨congrArg Prod.fst this, congrArg Prod.snd this⟩
      subst h1
      subst h2
      constructor
      · intro hf
        cases hf
      · intro _ v hv
        exact hv
    | (x, y) :: rest =>
      have hx : x ∈ c.vars := hq (x, y) (by simp)
      by_cases hr : (revise c d x y).2 = true
      · by_cases he : ((revise c d x y).1 x).isEmpty = true
        · simp only [ac3F, hr, if_true, he] at h
          obtain ⟨h1, h2⟩ : (revise c d x y).1 = d2 ∧ false = b := by
            have := Option.some.inj h
            exact ⟨congrArg Prod.fst this, congrArg Prod.snd this⟩
          subst h1
          subst h2
          refine ⟨fun _ => ⟨x, hx, ?_⟩, fun ht => by cases ht⟩
          exact List.isEmpty_iff.mp he
        · simp only [ac3F, hr, if_true, he, Bool.false_eq_true, if_false] at h
          have hq2 : ∀ p ∈ rest ++ (neighborsMinus c x y).map (fun z => (z, x)),
              p.1 ∈ c.vars := by
            intro p hp
            rcases List.mem_append.mp hp with hp | hp
            · exact hq p (List.mem_cons_of_mem _ hp)
            · rw [List.mem_map] at hp
              obtain ⟨z, hz, rfl⟩ := hp
              exact (neighbors_mem (neighborsMinus_mem hz)).1
          have hih := ih _ _ hq2 d2 b h
          refine ⟨hih.1, fun ht v hv => ?_⟩
          apply hih.2 ht v
          by_cases hvx : v = x
          · rw [hvx]
            intro hemp
            rw [hemp] at he
            simp at he
          · rw [revise_fst_apply_ne hvx]
            exact hv
      · simp only [Bool.not_eq_true] at hr
        simp only [ac3F, hr, Bool.false_eq_true, if_false] at h
        rw [revise_snd_false hr] at h
        exact ih _ _ (fun p hp => hq p (List.mem_cons_of_mem _ hp)) d2 b h

theorem revise_support {c : Crossword} {d : Domains} {x y : Nat} {sol : Nat → Word}
    (hsol : IsSolution c sol) (hx : x ∈ c.vars) (hy : y ∈ c.vars)
    (hs : Supports c d sol) : Supports c (revise c d x y).1 sol := by
  intro v hv
  by_cases hvx : v = x
  · rcases h : c.overlaps x y with _ | ⟨i, j⟩
    · rw [revise_of_none h]
      exact hs v hv
    · rw [hvx, revise_mem_fst h]
      refine ⟨hs x hx, sol y, hs y hy, ?_⟩
      have hag := hsol.2.2 x hx y hy
      unfold overlapAgrees at hag
      rw [h] at hag
      simpa [beq_iff_eq] using hag
  · rw [revise_fst_apply_ne hvx]
    exact hs v hv

theorem ac3F_support {c : Crossword} {sol : Nat → Word} (hsol : IsSolution c sol) :
    ∀ f d q, (∀ p ∈ q, p.1 ∈ c.vars ∧ p.2 ∈ c.vars) → Supports c d sol →
      ∀ d2 b, ac3F c f d q = some (d2, b) → Supports c d2 sol := by
  intro f
  induction f with
  | zero =>
    intro d q hq hs d2 b h
    cases h
  | succ f ih =>
    intro d q hq hs d2 b h
    match q with
    | [] =>
      obtain h1 : d = d2 := by
        have := Option.some.inj h
        exact congrArg Prod.fst this
      exact h1 ▸ hs
    | (x, y) :: rest =>
      have hx : x ∈ c.vars := (hq (x, y) (by simp)).1
      have hy : y ∈ c.vars := (hq (x, y) (by simp)).2
      have hs2 : Supports c (revise c d x y).1 sol := revise_support hsol hx hy hs
      by_cases hr : (revise c d x y).2 = true
      · by_cases he : ((revise c d x y).1 x).isEmpty = true
        · simp only [ac3F, hr, if_true, he] at h
          obtain h1 : (revise c d x y).1 = d2 := by
            have := Option.some.inj h
            exact congrArg Prod.fst this
          exact h1 ▸ hs2
        · simp only [ac3F, hr, if_true, he, Bool.false_eq_true, if_false] at h
          have hq2 : ∀ p ∈ rest ++ (neighborsMinus c x y).map (fun z => (z, x)),
              p.1 ∈ c.vars ∧ p.2 ∈ c.vars := by
            intro p hp
            rcases List.mem_append.mp hp with hp | hp
            · exact hq p (List.mem_cons_of_mem _ hp)
            · rw [List.mem_map] at hp
              obtain ⟨z, hz, rfl⟩ := hp
              exact ⟨(neighbors_mem (neighborsMinus_mem hz)).1, hx⟩
          exact ih _ _ hq2 hs2 d2 b h
      · simp only [Bool.not_eq_true] at hr
        simp only [ac3F, hr, Bool.false_eq_true, if_false] at h
        rw [revise_snd_false hr] at h
        exact ih _ _ (fun p hp => hq p (List.mem_cons_of_mem _ hp)) hs d2 b h

theorem revise_arcCons {c : Crossword} {d : Domains} {x y : Nat}
    (hac : ArcCons c d) (hx : x ∈ c.vars) (hy : y ∈ c.vars) :
    revise c d x y = (d, false) := by
  rcases h : c.overlaps x y with _ | ⟨i, j⟩
  · exact revise_of_none h
  · rw [revise_of_some h, if_pos]
    apply (filter_length_eq_iff _ _).mpr
    intro w hw
    have hls := hac x hx y hy w hw
    unfold lacksSupport at hls
    rw [h] at hls
    simpa using hls

theorem ac3F_arcCons {c : Crossword} {d : Domains} (hac : ArcCons c d) :
    ∀ q f, (∀ p ∈ q, p.1 ∈ c.vars ∧ p.2 ∈ c.vars) →
      f ≥ q.length + 1 → ac3F c f d q = some (d, true) := by
  intro q
  induction q with
  | nil =>
    intro f hq hf
    match f, hf with
    | f + 1, _ => rfl
  | cons p rest ih =>
    intro f hq hf
    obtain ⟨x, y⟩ := p
    match f, hf with
    | f + 1, hf =>
      have hrev := revise_arcCons hac (hq (x, y) (by simp)).1 (hq (x, y) (by simp)).2
      simp only [ac3F, hrev, Bool.false_eq_true, if_false]
      apply ih f (fun p hp => hq p (List.mem_cons_of_mem _ hp))
      simp only [List.length_cons] at hf
      omega

/-! ## Assignments, selection, completeness counting -/

theorem keysOf_snoc (a : Assn) (var : Nat) (w : Word) :
    keysOf (a ++ [(var, w)]) = keysOf a ++ [var] := by
  simp [keysOf]

theorem KeysOK_snoc {c : Crossword} {a : Assn} {var : Nat} (w : Word)
    (hk : KeysOK c a) (hv : var ∈ c.vars) (hun : alookup a var = none) :
    KeysOK c (a ++ [(var, w)]) := by
  have hvk : var ∉ keysOf a := alookup_eq_none.mp hun
  constructor
  · rw [keysOf_snoc]
    simp [List.nodup_append, hk.1, hvk]
  · intro v hvm
    rw [keysOf_snoc] at hvm
    rcases List.mem_append.mp hvm with h | h
    · exact hk.2 v h
    · simp at h
      rw [h]
      exact hv

theorem alookup_snoc_unassigned {a : Assn} {var : Nat} (w : Word) (v : Nat)
    (hne : v ≠ var) : alookup (a ++ [(var, w)]) v = alookup a v := by
  rw [alookup_snoc]
  rcases h : alookup a v with _ | u
  · simp [Ne.symm hne]
  · rfl

theorem alookup_snoc_self {a : Assn} {var : Nat} (w : Word)
    (hun : alookup a var = none) : alookup (a ++ [(var, w)]) var = some w := by
  rw [alookup_snoc, hun]
  simp

theorem filter_length_pred_change {x : Nat} (p q : Nat → Bool)
    (hpx : p x = true) (hqx : q x = false) :
    ∀ l : List Nat, l.Nodup → x ∈ l → (∀ v ∈ l, v ≠ x → p v = q v) →
      (l.filter q).length + 1 = (l.filter p).length := by
  intro l
  induction l with
  | nil => simp
  | cons hd tl ih =>
    intro hnd hx hagree
    rcases List.mem_cons.mp hx with rfl | hx'
    · have hxtl : x ∉ tl := (List.nodup_cons.mp hnd).1
      have heq : tl.filter q = tl.filter p := by
        apply List.filter_congr
        intro v hv
        have : v ≠ x := by
          rintro rfl
          exact hxtl hv
        exact (hagree v (List.mem_cons_of_mem _ hv) this).symm
      rw [List.filter_cons_of_pos hpx, List.filter_cons_of_neg (by simp [hqx]), heq]
      simp
    · have hhd : hd ≠ x := by
        rintro rfl
        exact (List.nodup_cons.mp hnd).1 hx'
      have hpq := hagree hd (by simp) hhd
      have ihtl := ih (List.nodup_cons.mp hnd).2 hx'
        (fun v hv hvx => hagree v (List.mem_cons_of_mem _ hv) hvx)
      by_cases hphd : p hd = true
      · rw [List.filter_cons_of_pos hphd, List.filter_cons_of_pos (hpq ▸ hphd)]
        simp only [List.length_cons]
        omega
      · have hphd2 : p hd = false := by
          simpa using hphd
        have hqhd2 : q hd = false := by
          rw [← hpq]
          exact hphd2
        rw [List.filter_cons_of_neg (by simp [hqhd2]),
          List.filter_cons_of_neg (by simp [hphd2])]
        exact ihtl

theorem unCount_snoc {c : Crossword} {a : Assn} {var : Nat} (w : Word)
    (hnd : c.vars.Nodup) (hv : var ∈ c.vars) (hun : alookup a var = none) :
    unCount c (a ++ [(var, w)]) + 1 = unCount c a := by
  unfold unCount
  apply filter_length_pred_change
  · rw [hun]
    rfl
  · rw [alookup_snoc_self w hun]
    rfl
  · exact hnd
  · exact hv
  · intro v hvm hvne
    rw [alookup_snoc_unassigned w v hvne]

theorem exists_unassigned {c : Crossword} {a : Assn} (hnd : c.vars.Nodup)
    (hk : KeysOK c a) (hinc : assignment_complete c a = false) :
    ∃ v ∈ c.vars, alookup a v = none := by
  by_contra hno
  push_neg at hno
  have hsub : c.vars ⊆ keysOf a := by
    intro v hv
    by_contra hvk
    exact hno v hv (alookup_eq_none.mpr hvk)
  have h1 : c.vars.length ≤ (keysOf a).length :=
    (hnd.subperm hsub).length_le
  have h2 : (keysOf a).length ≤ c.vars.length :=
    ((hk.1).subperm hk.2).length_le
  have h3 : (keysOf a).length = a.length := List.length_map _ _
  simp only [assignment_complete] at hinc
  rw [beq_eq_false_iff_ne] at hinc
  omega

theorem unCount_pos {c : Crossword} {a : Assn} (hnd : c.vars.Nodup)
    (hk : KeysOK c a) (hinc : assignment_complete c a = false) :
    0 < unCount c a := by
  obtain ⟨v, hv, hun⟩ := exists_unassigned hnd hk hinc
  have : v ∈ c.vars.filter (fun v => (alookup a v).isNone) :=
    List.mem_filter.mpr ⟨hv, by simp [hun]⟩
  unfold unCount
  exact List.length_pos.mpr (List.ne_nil_of_mem this)

theorem select_mem {c : Crossword} {d : Domains} {a : Assn} {var : Nat}
    (h : select_unassigned_variable c d a = some var) :
    var ∈ c.vars ∧ alookup a var = none := by
  unfold select_unassigned_variable at h
  have hm : var ∈ isort (varKeyLe c d) (c.vars.filter (fun v => (alookup a v).isNone)) := by
    rcases hl : isort (varKeyLe c d) (c.vars.filter (fun v => (alookup a v).isNone)) with
      _ | ⟨hd, tl⟩
    · rw [hl] at h
      cases h
    · rw [hl] at h
      have : hd = var := Option.some.inj h
      rw [← this]
      simp
  rw [mem_isort] at hm
  obtain ⟨h1, h2⟩ := List.mem_filter.mp hm
  exact ⟨h1, by simpa using h2⟩

theorem select_isSome {c : Crossword} {d : Domains} {a : Assn} (hnd : c.vars.Nodup)
    (hk : KeysOK c a) (hinc : assignment_complete c a = false) :
    (select_unassigned_variable c d a).isSome := by
  obtain ⟨v, hv, hun⟩ := exists_unassigned hnd hk hinc
  have hm : v ∈ isort (varKeyLe c d) (c.vars.filter (fun v => (alookup a v).isNone)) := by
    rw [mem_isort]
    exact List.mem_filter.mpr ⟨hv, by simp [hun]⟩
  unfold select_unassigned_variable
  rcases hl : isort (varKeyLe c d) (c.vars.filter (fun v => (alookup a v).isNone)) with
    _ | ⟨hd, tl⟩
  · rw [hl] at hm
    cases hm
  · rfl

/-! ## The consistency check -/

theorem consistent_iff {c : Crossword} {a : Assn} :
    consistent c a = true ↔
      ((a.map Prod.snd).Nodup ∧
        ∀ p ∈ a, c.length p.1 = p.2.length ∧
          ∀ y ∈ neighbors c p.1, ∀ i j, c.overlaps p.1 y = some (i, j) →
            ∀ wy, alookup a y = some wy → charAt wy j = charAt p.2 i) := by
  unfold consistent
  rw [Bool.and_eq_true, decide_eq_true_iff, List.all_eq_true]
  apply and_congr_right
  intro _
  apply forall_congr'
  intro p
  apply imp_congr_right
  intro _
  rw [Bool.and_eq_true, beq_iff_eq, List.all_eq_true]
  apply and_congr_right
  intro _
  apply forall_congr'
  intro y
  apply imp_congr_right
  intro _
  rcases ho : c.overlaps p.1 y with _ | ⟨i, j⟩
  · simp [ho]
  · simp only [ho]
    constructor
    · intro hb i2 j2 hij wy hwy
      obtain ⟨rfl, rfl⟩ : i = i2 ∧ j = j2 := by
        have := Option.some.inj hij
        exact ⟨congrArg Prod.fst this, congrArg Prod.snd this⟩
      rw [hwy] at hb
      simpa [beq_iff_eq] using hb
    · intro hall
      rcases hw : alookup a y with _ | wy
      · rfl
      · simp only [beq_iff_eq]
        exact hall i j rfl wy hw

theorem consistent_of_agrees {c : Crossword} {a : Assn} {sol : Nat → Word}
    (hsol : IsSolution c sol) (hk : KeysOK c a) (hag : Agrees sol a) :
    consistent c a = true := by
  rw [consistent_iff]
  constructor
  · have hmap : a.map Prod.snd = (keysOf a).map sol := by
      unfold keysOf
      rw [List.map_map]
      apply List.map_congr_left
      intro p hp
      exact hag p hp
    rw [hmap]
    apply List.Nodup.map_on ?_ hk.1
    intro v1 h1 v2 h2 heq
    by_contra hne
    exact hsol.2.1 v1 (hk.2 v1 h1) v2 (hk.2 v2 h2) hne heq
  · intro p hp
    have hpv : p.1 ∈ c.vars := hk.2 p.1 (List.mem_map_of_mem Prod.fst hp)
    have hw : p.2 = sol p.1 := hag p hp
    constructor
    · rw [hw]
      exact ((hsol.1 p.1 hpv).2).symm
    · intro y hy i j ho wy hwy
      have hyv : y ∈ c.vars := (neighbors_mem hy).1
      have hwys : wy = sol y := hag (y, wy) (alookup_mem hwy)
      have hag2 := hsol.2.2 p.1 hpv y hyv
      unfold overlapAgrees at hag2
      rw [ho] at hag2
      rw [hw, hwys]
      have hchar : charAt (sol p.1) i = charAt (sol y) j := by
        simpa [beq_iff_eq] using hag2
      exact hchar.symm

/-! ## The `ac3` wrapper -/

theorem seedQueue_backtrack_mem {c : Crossword} {var : Nat} (hv : var ∈ c.vars) :
    ∀ p ∈ seedQueue c (some ((neighbors c var).map (fun nb => (nb, var)))),
      p.1 ∈ c.vars ∧ p.2 ∈ c.vars := by
  intro p hp
  have hp2 : p ∈ (if ((neighbors c var).map (fun nb => (nb, var))).isEmpty
      then allArcs c else (neighbors c var).map (fun nb => (nb, var))) := hp
  by_cases he : ((neighbors c var).map (fun nb => (nb, var))).isEmpty = true
  · rw [if_pos he] at hp2
    have := allArcs_mem hp2
    exact ⟨this.1, this.2.1⟩
  · rw [if_neg he] at hp2
    rw [List.mem_map] at hp2
    obtain ⟨z, hz, rfl⟩ := hp2
    exact ⟨(neighbors_mem hz).1, hv⟩

theorem seedQueue_none_mem (c : Crossword) :
    ∀ p ∈ seedQueue c none, p.1 ∈ c.vars ∧ p.2 ∈ c.vars := by
  intro p hp
  have := allArcs_mem hp
  exact ⟨this.1, this.2.1⟩

theorem ac3_isSome {c : Crossword} (hnd : c.vars.Nodup) (d : Domains)
    (arcs : Option (List (Nat × Nat)))
    (harcs : ∀ p ∈ seedQueue c arcs, p.1 ∈ c.vars) : (ac3 c d arcs).isSome :=
  ac3F_isSome hnd _ _ _ harcs (le_refl _)

theorem ac3_subset {c : Crossword} {d : Domains} {arcs : Option (List (Nat × Nat))}
    {d2 : Domains} {b : Bool} (h : ac3 c d arcs = some (d2, b)) :
    ∀ v w, w ∈ d2 v → w ∈ d v :=
  ac3F_subset _ _ _ _ _ h

theorem ac3_support {c : Crossword} {sol : Nat → Word} (hsol : IsSolution c sol)
    {d : Domains} {arcs : Option (List (Nat × Nat))} {d2 : Domains} {b : Bool}
    (harcs : ∀ p ∈ seedQueue c arcs, p.1 ∈ c.vars ∧ p.2 ∈ c.vars)
    (hs : Supports c d sol) (h : ac3 c d arcs = some (d2, b)) : Supports c d2 sol :=
  ac3F_support hsol _ _ _ harcs hs d2 b h

theorem ac3_arcCons {c : Crossword} {d : Domains} (hac : ArcCons c d)
    (arcs : Option (List (Nat × Nat)))
    (harcs : ∀ p ∈ seedQueue c arcs, p.1 ∈ c.vars ∧ p.2 ∈ c.vars) :
    ac3 c d arcs = some (d, true) := by
  unfold ac3
  apply ac3F_arcCons hac _ _ harcs
  unfold ac3Fuel
  have h1 : 0 < (domSize c d + 1) * (c.vars.length + 1) :=
    Nat.mul_pos (Nat.succ_pos _) (Nat.succ_pos _)
  omega

/-! ## Unfolding equations of the search -/

theorem backtrackF_succ_complete {c : Crossword} {f : Nat} {d : Domains} {a : Assn}
    (h : assignment_complete c a = true) :
    backtrackF c (f + 1) d a = some (some a, d) := by
  simp only [backtrackF]
  rw [if_pos h]

theorem backtrackF_succ_incomplete {c : Crossword} {f : Nat} {d : Domains} {a : Assn}
    {var : Nat} (h : assignment_complete c a = false)
    (hsel : select_unassigned_variable c d a = some var) :
    backtrackF c (f + 1) d a =
      tryWords c (backtrackF c f) a var d (order_domain_values c d a var) := by
  simp only [backtrackF]
  rw [if_neg (by simp [h]), hsel]

theorem backtrackF_succ_noselect {c : Crossword} {f : Nat} {d : Domains} {a : Assn}
    (h : assignment_complete c a = false)
    (hsel : select_unassigned_variable c d a = none) :
    backtrackF c (f + 1) d a = none := by
  simp only [backtrackF]
  rw [if_neg (by simp [h]), hsel]

theorem tryWords_nil {c : Crossword} {recur : Domains → Assn → Option (Option Assn × Domains)}
    {a : Assn} {var : Nat} {d : Domains} :
    tryWords c recur a var d [] = some (none, d) :=
  rfl

theorem tryWords_cons_false {c : Crossword}
    {recur : Domains → Assn → Option (Option Assn × Domains)}
    {a : Assn} {var : Nat} {d : Domains} {w : Word} {ws : List Word}
    (h : consistent c (a ++ [(var, w)]) = false) :
    tryWords c recur a var d (w :: ws) = tryWords c recur a var d ws := by
  simp only [tryWords]
  rw [if_neg (by simp [h])]

theorem tryWords_cons_true {c : Crossword}
    {recur : Domains → Assn → Option (Option Assn × Domains)}
    {a : Assn} {var : Nat} {d : Domains} {w : Word} {ws : List Word} {d2 : Domains} {b : Bool}
    (h : consistent c (a ++ [(var, w)]) = true)
    (hac3 : ac3 c d (some ((neighbors c var).map (fun nb => (nb, var)))) = some (d2, b)) :
    tryWords c recur a var d (w :: ws) =
      match recur d2 (a ++ [(var, w)]) with
      | none => none
      | some (some r, d3) =>
        if r.isEmpty then tryWords c recur a var d3 ws else some (some r, d3)
      | some (none, d3) => tryWords c recur a var d3 ws := by
  simp only [tryWords]
  rw [if_pos h, hac3]

theorem tryWords_cons_abort {c : Crossword}
    {recur : Domains → Assn → Option (Option Assn × Domains)}
    {a : Assn} {var : Nat} {d : Domains} {w : Word} {ws : List Word}
    (h : consistent c (a ++ [(var, w)]) = true)
    (hac3 : ac3 c d (some ((neighbors c var).map (fun nb => (nb, var)))) = none) :
    tryWords c recur a var d (w :: ws) = none := by
  simp only [tryWords]
  rw [if_pos h, hac3]

/-! ## Search invariants -/

theorem backtrack_sound_aux {c : Crossword} :
    ∀ f a d r d2, KeysOK c a → consistent c a = true →
      backtrackF c f d a = some (some r, d2) →
      assignment_complete c r = true ∧ consistent c r = true ∧ KeysOK c r := by
  intro f
  induction f with
  | zero =>
    intro a d r d2 _ _ h
    cases h
  | succ f ih =>
    intro a d r d2 hk hcons h
    by_cases hc : assignment_complete c a = true
    · rw [backtrackF_succ_complete hc] at h
      obtain ⟨h1, h2⟩ : some a = some r ∧ d = d2 := by
        have := Option.some.inj h
        exact ⟨congrArg Prod.fst this, congrArg Prod.snd this⟩
      obtain rfl : a = r := Option.some.inj h1
      exact ⟨hc, hcons, hk⟩
    · have hc2 : assignment_complete c a = false := by
        simpa using hc
      rcases hsel : select_unassigned_variable c d a with _ | var
      · rw [backtrackF_succ_noselect hc2 hsel] at h
        cases h
      · rw [backtrackF_succ_incomplete hc2 hsel] at h
        obtain ⟨hvv, hvun⟩ := select_mem hsel
        suffices hsuf : ∀ L d3, tryWords c (backtrackF c f) a var d3 L = some (some r, d2) →
            assignment_complete c r = true ∧ consistent c r = true ∧ KeysOK c r from
          hsuf _ _ h
        intro L
        induction L with
        | nil =>
          intro d3 hh
          rw [tryWords_nil] at hh
          have := Option.some.inj hh
          cases congrArg Prod.fst this
        | cons w ws ihw =>
          intro d3 hh
          by_cases hcons2 : consistent c (a ++ [(var, w)]) = true
          · rcases hac3 : ac3 c d3 (some ((neighbors c var).map (fun nb => (nb, var)))) with
              _ | ⟨d4, b4⟩
            · rw [tryWords_cons_abort hcons2 hac3] at hh
              cases hh
            · rw [tryWords_cons_true hcons2 hac3] at hh
              rcases hbt : backtrackF c f d4 (a ++ [(var, w)]) with _ | ⟨res, d5⟩
              · rw [hbt] at hh
                cases hh
              · rw [hbt] at hh
                rcases res with _ | r5
                · exact ihw d5 hh
                · have hh2 : (if r5.isEmpty = true
                      then tryWords c (backtrackF c f) a var d5 ws
                      else some (some r5, d5)) = some (some r, d2) := hh
                  by_cases hemp : r5.isEmpty = true
                  · rw [if_pos hemp] at hh2
                    exact ihw d5 hh2
                  · rw [if_neg hemp] at hh2
                    obtain ⟨h1, h2⟩ : some r5 = some r ∧ d5 = d2 := by
                      have := Option.some.inj hh2
                      exact ⟨congrArg Prod.fst this, congrArg Prod.snd this⟩
                    obtain rfl : r5 = r := Option.some.inj h1
                    have hk2 : KeysOK c (a ++ [(var, w)]) := KeysOK_snoc w hk hvv hvun
                    exact ih _ _ _ _ hk2 hcons2 hbt
          · have hcons3 : consistent c (a ++ [(var, w)]) = false := by
              simpa using hcons2
            rw [tryWords_cons_false hcons3] at hh
            exact ihw d3 hh

theorem backtrackF_isSome {c : Crossword} (hnd : c.vars.Nodup) :
    ∀ f a d, KeysOK c a → f ≥ unCount c a + 1 → (backtrackF c f d a).isSome := by
  intro f
  induction f with
  | zero =>
    intro a d hk hf
    exact absurd hf (by omega)
  | succ f ih =>
    intro a d hk hf
    by_cases hc : assignment_complete c a = true
    · rw [backtrackF_succ_complete hc]
      rfl
    · have hc2 : assignment_complete c a = false := by
        simpa using hc
      have hselS := @select_isSome c d a hnd hk hc2
      rcases hsel : select_unassigned_variable c d a with _ | var
      · rw [hsel] at hselS
        cases hselS
      · rw [backtrackF_succ_incomplete hc2 hsel]
        obtain ⟨hvv, hvun⟩ := select_mem hsel
        have hk2 : ∀ w : Word, KeysOK c (a ++ [(var, w)]) :=
          fun w => KeysOK_snoc w hk hvv hvun
        have hcnt : ∀ w : Word, unCount c (a ++ [(var, w)]) + 1 = unCount c a :=
          fun w => unCount_snoc w hnd hvv hvun
        suffices hsuf : ∀ L d3, (tryWords c (backtrackF c f) a var d3 L).isSome from
          hsuf _ _
        intro L
        induction L with
        | nil =>
          intro d3
          rw [tryWords_nil]
          rfl
        | cons w ws ihw =>
          intro d3
          by_cases hcons2 : consistent c (a ++ [(var, w)]) = true
          · have hacS := ac3_isSome hnd d3
              (some ((neighbors c var).map (fun nb => (nb, var))))
              (fun p hp => (seedQueue_backtrack_mem hvv p hp).1)
            rcases hac3 : ac3 c d3 (some ((neighbors c var).map (fun nb => (nb, var)))) with
              _ | ⟨d4, b4⟩
            · rw [hac3] at hacS
              cases hacS
            · rw [tryWords_cons_true hcons2 hac3]
              have hbtS := ih (a ++ [(var, w)]) d4 (hk2 w) (by
                have := hcnt w
                omega)
              split
              · rename_i hbt
                rw [hbt] at hbtS
                cases hbtS
              · rename_i r5 d5 hbt
                by_cases hemp : r5.isEmpty = true
                · rw [if_pos hemp]
                  exact ihw d5
                · rw [if_neg hemp]
                  rfl
              · rename_i d5 hbt
                exact ihw d5
          · have hcons3 : consistent c (a ++ [(var, w)]) = false := by
              simpa using hcons2
            rw [tryWords_cons_false hcons3]
            exact ihw d3

theorem backtrackF_support {c : Crossword} {sol : Nat → Word} (hsol : IsSolution c sol) :
    ∀ f a d res d2, Supports c d sol → backtrackF c f d a = some (res, d2) →
      Supports c d2 sol := by
  intro f
  induction f with
  | zero =>
    intro a d res d2 _ h
    cases h
  | succ f ih =>
    intro a d res d2 hs h
    by_cases hc : assignment_complete c a = true
    · rw [backtrackF_succ_complete hc] at h
      have := Option.some.inj h
      have hd : d = d2 := congrArg Prod.snd this
      exact hd ▸ hs
    · have hc2 : assignment_complete c a = false := by
        simpa using hc
      rcases hsel : select_unassigned_variable c d a with _ | var
      · rw [backtrackF_succ_noselect hc2 hsel] at h
        cases h
      · rw [backtrackF_succ_incomplete hc2 hsel] at h
        obtain ⟨hvv, hvun⟩ := select_mem hsel
        suffices hsuf : ∀ L d3, Supports c d3 sol →
            tryWords c (backtrackF c f) a var d3 L = some (res, d2) →
            Supports c d2 sol from hsuf _ _ hs h
        intro L
        induction L with
        | nil =>
          intro d3 hs3 hh
          rw [tryWords_nil] at hh
          have := Option.some.inj hh
          have hd : d3 = d2 := congrArg Prod.snd this
          exact hd ▸ hs3
        | cons w ws ihw =>
          intro d3 hs3 hh
          by_cases hcons2 : consistent c (a ++ [(var, w)]) = true
          · rcases hac3 : ac3 c d3 (some ((neighbors c var).map (fun nb => (nb, var)))) with
              _ | ⟨d4, b4⟩
            · rw [tryWords_cons_abort hcons2 hac3] at hh
              cases hh
            · rw [tryWords_cons_true hcons2 hac3] at hh
              have hs4 : Supports c d4 sol :=
                ac3_support hsol (seedQueue_backtrack_mem hvv) hs3 hac3
              split at hh
              · cases hh
              · rename_i r5 d5 hbt
                have hs5 : Supports c d5 sol := ih _ _ _ _ hs4 hbt
                by_cases hemp : r5.isEmpty = true
                · rw [if_pos hemp] at hh
                  exact ihw d5 hs5 hh
                · rw [if_neg hemp] at hh
                  have := Option.some.inj hh
                  have hd : d5 = d2 := congrArg Prod.snd this
                  exact hd ▸ hs5
              · rename_i d5 hbt
                have hs5 : Supports c d5 sol := ih _ _ _ _ hs4 hbt
                exact ihw d5 hs5 hh
          · have hcons3 : consistent c (a ++ [(var, w)]) = false := by
              simpa using hcons2
            rw [tryWords_cons_false hcons3] at hh
            exact ihw d3 hs3 hh

theorem backtrackF_arcCons {c : Crossword} {d : Domains} (hac : ArcCons c d) :
    ∀ f a res d2, backtrackF c f d a = some (res, d2) → d2 = d := by
  intro f
  induction f with
  | zero =>
    intro a res d2 h
    cases h
  | succ f ih =>
    intro a res d2 h
    by_cases hc : assignment_complete c a = true
    · rw [backtrackF_succ_complete hc] at h
      exact (congrArg Prod.snd (Option.some.inj h)).symm
    · have hc2 : assignment_complete c a = false := by
        simpa using hc
      rcases hsel : select_unassigned_variable c d a with _ | var
      · rw [backtrackF_succ_noselect hc2 hsel] at h
        cases h
      · rw [backtrackF_succ_incomplete hc2 hsel] at h
        obtain ⟨hvv, hvun⟩ := select_mem hsel
        have hac3d : ac3 c d (some ((neighbors c var).map (fun nb => (nb, var))))
            = some (d, true) :=
          ac3_arcCons hac _ (seedQueue_backtrack_mem hvv)
        suffices hsuf : ∀ L, tryWords c (backtrackF c f) a var d L = some (res, d2) →
            d2 = d from hsuf _ h
        intro L
        induction L with
        | nil =>
          intro hh
          rw [tryWords_nil] at hh
          exact (congrArg Prod.snd (Option.some.inj hh)).symm
        | cons w ws ihw =>
          intro hh
          by_cases hcons2 : consistent c (a ++ [(var, w)]) = true
          · rw [tryWords_cons_true hcons2 hac3d] at hh
            split at hh
            · cases hh
            · rename_i r5 d5 hbt
              have hd5 : d5 = d := ih _ _ _ hbt
              by_cases hemp : r5.isEmpty = true
              · rw [if_pos hemp, hd5] at hh
                exact ihw hh
              · rw [if_neg hemp] at hh
                exact hd5 ▸ (congrArg Prod.snd (Option.some.inj hh)).symm
            · rename_i d5 hbt
              have hd5 : d5 = d := ih _ _ _ hbt
              rw [hd5] at hh
              exact ihw hh
          · have hcons3 : consistent c (a ++ [(var, w)]) = false := by
              simpa using hcons2
            rw [tryWords_cons_false hcons3] at hh
            exact ihw hh

theorem complete_length {c : Crossword} {r : Assn}
    (h : assignment_complete c r = true) : c.vars.length = r.length := by
  simpa [assignment_complete] using h

theorem backtrackF_completes {c : Crossword} {sol : Nat → Word}
    (hnd : c.vars.Nodup) (hsol : IsSolution c sol) :
    ∀ f a d, KeysOK c a → Agrees sol a → Supports c d sol →
      f ≥ unCount c a + 1 →
      ∃ r d2, backtrackF c f d a = some (some r, d2) := by
  intro f
  induction f with
  | zero =>
    intro a d _ _ _ hf
    exact absurd hf (by omega)
  | succ f ih =>
    intro a d hk hag hs hf
    by_cases hc : assignment_complete c a = true
    · exact ⟨a, d, backtrackF_succ_complete hc⟩
    · have hc2 : assignment_complete c a = false := by
        simpa using hc
      have hselS := @select_isSome c d a hnd hk hc2
      rcases hsel : select_unassigned_variable c d a with _ | var
      · rw [hsel] at hselS
        cases hselS
      · obtain ⟨hvv, hvun⟩ := select_mem hsel
        have hvars_pos : 0 < c.vars.length :=
          List.length_pos.mpr (List.ne_nil_of_mem hvv)
        have hmemodv : sol var ∈ order_domain_values c d a var := by
          unfold order_domain_values
          rw [mem_isort]
          exact hs var hvv
        have hsuf : ∀ L d3, sol var ∈ L → Supports c d3 sol →
            ∃ r d2, tryWords c (backtrackF c f) a var d3 L = some (some r, d2) := by
          intro L
          induction L with
          | nil =>
            intro d3 hmem _
            simp at hmem
          | cons w ws ihw =>
            intro d3 hmem hs3
            by_cases hw : w = sol var
            · have hag2 : Agrees sol (a ++ [(var, w)]) := by
                intro p hp
                rcases List.mem_append.mp hp with hp | hp
                · exact hag p hp
                · have hp2 : p = (var, w) := by
                    simpa using hp
                  rw [hp2]
                  exact hw
              have hk2 : KeysOK c (a ++ [(var, w)]) := KeysOK_snoc w hk hvv hvun
              have hcons2 : consistent c (a ++ [(var, w)]) = true :=
                consistent_of_agrees hsol hk2 hag2
              have hacS := ac3_isSome hnd d3
                (some ((neighbors c var).map (fun nb => (nb, var))))
                (fun p hp => (seedQueue_backtrack_mem hvv p hp).1)
              rcases hac3 : ac3 c d3 (some ((neighbors c var).map (fun nb => (nb, var)))) with
                _ | ⟨d4, b4⟩
              · rw [hac3] at hacS
                cases hacS
              · have hs4 : Supports c d4 sol :=
                  ac3_support hsol (seedQueue_backtrack_mem hvv) hs3 hac3
                have hcnt := @unCount_snoc c a var w hnd hvv hvun
                obtain ⟨r, d5, hbt⟩ := ih (a ++ [(var, w)]) d4 hk2 hag2 hs4 (by omega)
                have hsound := backtrack_sound_aux f _ _ _ _ hk2 hcons2 hbt
                have hrlen : c.vars.length = r.length := complete_length hsound.1
                have hemp : r.isEmpty = false := by
                  rcases r with _ | ⟨p, rest⟩
                  · exfalso
                    rw [List.length_nil] at hrlen
                    omega
                  · rfl
                refine ⟨r, d5, ?_⟩
                rw [tryWords_cons_true hcons2 hac3, hbt]
                have hfin : (if r.isEmpty = true
                    then tryWords c (backtrackF c f) a var d5 ws
                    else some (some r, d5)) = some (some r, d5) :=
                  if_neg (by simp [hemp])
                exact hfin
            · have hmem2 : sol var ∈ ws := by
                rcases List.mem_cons.mp hmem with h | h
                · exact absurd h.symm hw
                · exact h
              by_cases hcons2 : consistent c (a ++ [(var, w)]) = true
              · have hacS := ac3_isSome hnd d3
                  (some ((neighbors c var).map (fun nb => (nb, var))))
                  (fun p hp => (seedQueue_backtrack_mem hvv p hp).1)
                rcases hac3 : ac3 c d3
                    (some ((neighbors c var).map (fun nb => (nb, var)))) with
                  _ | ⟨d4, b4⟩
                · rw [hac3] at hacS
                  cases hacS
                · have hs4 : Supports c d4 sol :=
                    ac3_support hsol (seedQueue_backtrack_mem hvv) hs3 hac3
                  have hk2 : KeysOK c (a ++ [(var, w)]) := KeysOK_snoc w hk hvv hvun
                  have hcnt := @unCount_snoc c a var w hnd hvv hvun
                  have hbtS := backtrackF_isSome hnd f (a ++ [(var, w)]) d4 hk2 (by omega)
                  rcases hbt : backtrackF c f d4 (a ++ [(var, w)]) with _ | ⟨res, d5⟩
                  · rw [hbt] at hbtS
                    cases hbtS
                  · have hs5 : Supports c d5 sol :=
                      backtrackF_support hsol f _ _ _ _ hs4 hbt
                    rcases res with _ | r5
                    · obtain ⟨r, d6, hrec⟩ := ihw d5 hmem2 hs5
                      refine ⟨r, d6, ?_⟩
                      rw [tryWords_cons_true hcons2 hac3, hbt]
                      exact hrec
                    · have hsound := backtrack_sound_aux f _ _ _ _ hk2 hcons2 hbt
                      have hrlen : c.vars.length = r5.length := complete_length hsound.1
                      have hemp : r5.isEmpty = false := by
                        rcases r5 with _ | ⟨p, rest⟩
                        · exfalso
                          rw [List.length_nil] at hrlen
                          omega
                        · rfl
                      refine ⟨r5, d5, ?_⟩
                      rw [tryWords_cons_true hcons2 hac3, hbt]
                      have hfin : (if r5.isEmpty = true
                          then tryWords c (backtrackF c f) a var d5 ws
                          else some (some r5, d5)) = some (some r5, d5) :=
                        if_neg (by simp [hemp])
                      exact hfin
              · have hcons3 : consistent c (a ++ [(var, w)]) = false := by
                  simpa using hcons2
                obtain ⟨r, d6, hrec⟩ := ihw d3 hmem2 hs3
                refine ⟨r, d6, ?_⟩
                rw [tryWords_cons_false hcons3]
                exact hrec
        obtain ⟨r, d2, hfin⟩ := hsuf _ _ hmemodv hs
        refine ⟨r, d2, ?_⟩
        rw [backtrackF_succ_incomplete hc2 hsel]
        exact hfin

/-! ## The top-level solver -/

theorem consistent_nil (c : Crossword) : consistent c [] = true := by
  rw [consistent_iff]
  constructor
  · exact List.nodup_nil
  · intro p hp
    cases hp

theorem KeysOK_nil (c : Crossword) : KeysOK c [] := by
  constructor
  · exact List.nodup_nil
  · intro v hv
    cases hv

theorem unCount_le (c : Crossword) (a : Assn) : unCount c a ≤ c.vars.length :=
  List.length_filter_le _ _

theorem solve_eq {c : Crossword} {res : Option Assn} {d2 : Domains}
    (h : solve c = some (res, d2)) :
    ∃ d1 b1, ac3 c (enforce_node_consistency c (initialDomains c)) none = some (d1, b1) ∧
      backtrackF c (solveFuel c) d1 [] = some (res, d2) := by
  have h2 : (match ac3 c (enforce_node_consistency c (initialDomains c)) none with
      | none => (none : Option (Option Assn × Domains))
      | some (d1, _) => backtrackF c (solveFuel c) d1 []) = some (res, d2) := h
  rcases hac3 : ac3 c (enforce_node_consistency c (initialDomains c)) none with _ | ⟨d1, b1⟩
  · rw [hac3] at h2
    cases h2
  · rw [hac3] at h2
    exact ⟨d1, b1, rfl, h2⟩

theorem supports_after_enc {c : Crossword} {sol : Nat → Word} (hsol : IsSolution c sol) :
    Supports c (enforce_node_consistency c (initialDomains c)) sol := by
  intro v hv
  rw [enc_mem hv]
  exact ⟨(hsol.1 v hv).1, (hsol.1 v hv).2⟩

theorem values_nodup_inj :
    ∀ r : Assn, (r.map Prod.snd).Nodup →
      ∀ p1 ∈ r, ∀ p2 ∈ r, p1.2 = p2.2 → p1 = p2 := by
  intro r
  induction r with
  | nil =>
    intro _ p1 hp1
    cases hp1
  | cons q rest ih =>
    intro hnd p1 hp1 p2 hp2 heq
    rw [List.map_cons] at hnd
    have hhd : q.2 ∉ rest.map Prod.snd := (List.nodup_cons.mp hnd).1
    have htl : (rest.map Prod.snd).Nodup := (List.nodup_cons.mp hnd).2
    rcases List.mem_cons.mp hp1 with rfl | hp1m
    · rcases List.mem_cons.mp hp2 with rfl | hp2m
      · rfl
      · exfalso
        apply hhd
        rw [heq]
        exact List.mem_map_of_mem Prod.snd hp2m
    · rcases List.mem_cons.mp hp2 with rfl | hp2m
      · exfalso
        apply hhd
        rw [← heq]
        exact List.mem_map_of_mem Prod.snd hp1m
      · exact ih htl p1 hp1m p2 hp2m heq

theorem complete_assigns {c : Crossword} {r : Assn} (hk : KeysOK c r)
    (hcomp : assignment_complete c r = true) :
    ∀ v ∈ c.vars, ∃ w, alookup r v = some w := by
  intro v hv
  rcases hw : alookup r v with _ | w
  · exfalso
    have hvk : v ∉ keysOf r := alookup_eq_none.mp hw
    have hsub : keysOf r ⊆ c.vars.erase v := by
      intro k hkm
      have hkv : k ≠ v := by
        rintro rfl
        exact hvk hkm
      exact (List.mem_erase_of_ne hkv).mpr (hk.2 k hkm)
    have hle := ((hk.1).subperm hsub).length_le
    have herase := c.vars.length_erase_of_mem hv
    have hlen := complete_length hcomp
    have hkeys : (keysOf r).length = r.length := List.length_map _ _
    have hpos : 0 < c.vars.length := List.length_pos.mpr (List.ne_nil_of_mem hv)
    omega
  · exact ⟨w, rfl⟩

/-! ## The claims -/

/-- C7: after `enforce_node_consistency`, each slot's domain is exactly the
subset of its previous domain consisting of the words whose length equals the
slot's fixed length. -/
theorem node_consistency_exact {c : Crossword} {d : Domains} {v : Nat}
    (hv : v ∈ c.vars) :
    ∀ w, w ∈ enforce_node_consistency c d v ↔ (w ∈ d v ∧ w.length = c.length v) :=
  fun w => enc_mem hv w

theorem node_consistency_exact_witness :
    0 ∈ cxShort.vars ∧
      ((['a','b'] : Word) ∈ enforce_node_consistency cxShort (initialDomains cxShort) 0 ↔
        ((['a','b'] : Word) ∈ initialDomains cxShort 0 ∧
          (['a','b'] : Word).length = cxShort.length 0)) :=
  ⟨by decide, node_consistency_exact (by decide) ['a','b']⟩

/-- C6: `revise(x, y)` keeps in `domains[x]` exactly the words with a
supporting word in `domains[y]` at the overlap offsets, changes no other
slot's domain, and returns `True` iff at least one word was removed. -/
theorem revise_contract {c : Crossword} {d : Domains} {x y i j : Nat}
    (h : c.overlaps x y = some (i, j)) :
    (∀ w, w ∈ (revise c d x y).1 x ↔
        (w ∈ d x ∧ ∃ w2 ∈ d y, charAt w i = charAt w2 j)) ∧
    (∀ v, v ≠ x → (revise c d x y).1 v = d v) ∧
    ((revise c d x y).2 = true ↔
      ∃ w ∈ d x, ∀ w2 ∈ d y, charAt w i ≠ charAt w2 j) :=
  ⟨fun w => revise_mem_fst h w, fun _ hv => revise_fst_apply_ne hv,
    revise_snd_true_iff h⟩

theorem revise_contract_witness :
    cxB.overlaps 1 0 = some (0, 0) ∧
      ((['b'] : Word) ∈ (revise cxB dxB 1 0).1 1 ↔
        ((['b'] : Word) ∈ dxB 1 ∧ ∃ w2 ∈ dxB 0, charAt ['b'] 0 = charAt w2 0)) :=
  ⟨by decide, (revise_contract (by decide)).1 ['b']⟩

/-- C8: `enforce_node_consistency`, `revise` and `ac3` only ever remove
candidate words — each slot's domain after any of them is a subset of its
domain before. -/
theorem domains_only_shrink (c : Crossword) (d : Domains) :
    (∀ v w, w ∈ enforce_node_consistency c d v → w ∈ d v) ∧
    (∀ x y v w, w ∈ (revise c d x y).1 v → w ∈ d v) ∧
    (∀ arcs d2 b, ac3 c d arcs = some (d2, b) → ∀ v w, w ∈ d2 v → w ∈ d v) :=
  ⟨fun v w h => enc_subset v w h,
   fun x y v w h => revise_fst_subset x y v w h,
   fun _ _ _ h => ac3_subset h⟩

theorem domains_only_shrink_witness :
    (['a'] : Word) ∈ enforce_node_consistency cxOne dxOne 0 ∧ (['a'] : Word) ∈ dxOne 0 :=
  ⟨by decide, (domains_only_shrink cxOne dxOne).1 0 ['a'] (by decide)⟩

/-- C9: `order_domain_values` returns exactly the words of the slot's domain,
sorted ascending by the number of values each word would eliminate among the
unassigned neighbors. -/
theorem order_domain_values_spec (c : Crossword) (d : Domains) (a : Assn) (var : Nat) :
    (order_domain_values c d a var).Perm (d var) ∧
      (order_domain_values c d a var).Pairwise
        (fun w1 w2 => elimCount c d a var w1 ≤ elimCount c d a var w2) := by
  constructor
  · exact perm_isort _ _
  · have hp := pairwise_isort
      (fun w1 w2 => decide (elimCount c d a var w1 ≤ elimCount c d a var w2))
      (fun w1 w2 => by
        rcases Nat.le_total (elimCount c d a var w1) (elimCount c d a var w2) with h | h
        · exact Or.inl (decide_eq_true h)
        · exact Or.inr (decide_eq_true h))
      (fun w1 w2 w3 h1 h2 => decide_eq_true
        (le_trans (of_decide_eq_true h1) (of_decide_eq_true h2)))
      (d var)
    exact hp.imp (fun h => of_decide_eq_true h)

/-- C10: `ac3` with an empty explicit arc list behaves exactly like `ac3`
with no arc list (Python truthiness of `if arcs:`), so the in-search `ac3`
call for a slot with no neighbors performs full-board propagation. -/
theorem ac3_empty_arcs_full (c : Crossword) (d : Domains) (var : Nat) :
    ac3 c d (some []) = ac3 c d none ∧
      (neighbors c var = [] →
        ac3 c d (some ((neighbors c var).map (fun nb => (nb, var)))) = ac3 c d none) := by
  constructor
  · rfl
  · intro h
    rw [h]
    rfl

theorem ac3_empty_arcs_full_witness :
    neighbors cxOne 0 = [] ∧
      ac3 cxOne dxOne (some ((neighbors cxOne 0).map (fun nb => (nb, 0)))) =
        ac3 cxOne dxOne none :=
  ⟨by decide, (ac3_empty_arcs_full cxOne dxOne 0).2 (by decide)⟩

/-- C4: the `ac3` run always terminates with a result; it reports `False`
exactly by stopping at a revision that emptied a domain (so a slot of the
puzzle is left with an empty domain), and when it reports `True` the queue
drained without any domain having been emptied (every initially non-empty
domain is still non-empty). -/
theorem ac3_failure_discipline {c : Crossword} (hnd : c.vars.Nodup)
    (d : Domains) (arcs : Option (List (Nat × Nat)))
    (harcs : ∀ p ∈ seedQueue c arcs, p.1 ∈ c.vars) :
    ∃ d2 b, ac3 c d arcs = some (d2, b) ∧
      (∀ v w, w ∈ d2 v → w ∈ d v) ∧
      (b = false → ∃ v ∈ c.vars, d2 v = []) ∧
      (b = true → ∀ v, d v ≠ [] → d2 v ≠ []) := by
  have hS := ac3_isSome hnd d arcs harcs
  rcases h : ac3 c d arcs with _ | ⟨d2, b⟩
  · rw [h] at hS
    cases hS
  · have h2 : ac3F c (ac3Fuel c d (seedQueue c arcs)) d (seedQueue c arcs)
        = some (d2, b) := h
    have hrun := ac3F_run _ _ _ harcs d2 b h2
    exact ⟨d2, b, rfl, ac3_subset h, hrun.1, hrun.2⟩

theorem ac3_failure_discipline_witness :
    cxB.vars.Nodup ∧ (∀ p ∈ seedQueue cxB none, p.1 ∈ cxB.vars) ∧
      ∃ d2 b, ac3 cxB dxConf none = some (d2, b) ∧
        (∀ v w, w ∈ d2 v → w ∈ dxConf v) ∧
        (b = false → ∃ v ∈ cxB.vars, d2 v = []) ∧
        (b = true → ∀ v, dxConf v ≠ [] → d2 v ≠ []) :=
  ⟨by decide, by decide, ac3_failure_discipline (by decide) dxConf none (by decide)⟩

/-- C5 (evidence): with a vocabulary whose only word is too short for the
single slot, node consistency empties that slot's domain, and `solve` still
reports the no-solution outcome `None` — but, as the definition of `solve`
shows, it does so by unconditionally entering `backtrack` (the Boolean result
of the initial `ac3` is discarded), not by short-circuiting before the
search. -/
theorem solve_empty_domain_outcome :
    enforce_node_consistency cxShort (initialDomains cxShort) 0 = [] ∧
      solveAssignment cxShort = some none := by
  constructor
  · decide
  · decide

/-- C1 counterexample: a `backtrack` call that returns `None` does not, in
general, leave `self.domains` as it was at entry: on `cxB` with the
non-arc-consistent entry domains `dxB`, the failed search permanently shrinks
slot 1's domain from two words to one — no rollback of domain pruning is
performed. -/
theorem backtrack_no_rollback_cex :
    (backtrackF cxB 3 dxB []).map (fun r => (r.1, r.2 1)) = some (none, [['a']]) ∧
      dxB 1 = [['a'], ['b']] := by
  constructor
  · decide
  · decide

/-- C1 amended: `backtrack` performs no rollback at all; instead, whenever it
is entered with arc-consistent domains (as every `backtrack` call reached
from `solve` after its initial full `ac3` is), none of its internal `ac3`
calls removes anything, so `self.domains` is left exactly equal to its value
at entry — trivially, because it is never mutated. -/
theorem backtrack_preserves_arc_consistent_domains {c : Crossword} {d : Domains}
    (hac : ArcCons c d) {f : Nat} {a : Assn} {res : Option Assn} {d2 : Domains}
    (h : backtrackF c f d a = some (res, d2)) : ∀ v, d2 v = d v := by
  have heq := backtrackF_arcCons hac f a res d2 h
  intro v
  rw [heq]

theorem backtrack_preserves_arc_consistent_domains_witness :
    ArcCons cxOne dxOne ∧ ∀ v, dxOne v = dxOne v :=
  ⟨by unfold ArcCons; decide,
    @backtrack_preserves_arc_consistent_domains cxOne dxOne
      (by unfold ArcCons; decide) 2 [] (some [(0, ['a'])]) dxOne rfl⟩

/-- C2: if the puzzle has a complete satisfying assignment (drawn from the
vocabulary, with length match, pairwise distinct words and overlap
agreement), then `solve` returns a complete consistent assignment rather
than `None`. -/
theorem solve_completeness {c : Crossword} (hnd : c.vars.Nodup)
    (hex : ∃ sol, IsSolution c sol) :
    ∃ r, solveAssignment c = some (some r) ∧
      assignment_complete c r = true ∧ consistent c r = true := by
  obtain ⟨sol, hsol⟩ := hex
  have hs0 : Supports c (enforce_node_consistency c (initialDomains c)) sol :=
    supports_after_enc hsol
  have hacS := ac3_isSome hnd (enforce_node_consistency c (initialDomains c)) none
    (fun p hp => (seedQueue_none_mem c p hp).1)
  rcases hac3 : ac3 c (enforce_node_consistency c (initialDomains c)) none with _ | ⟨d1, b1⟩
  · rw [hac3] at hacS
    cases hacS
  · have hs1 : Supports c d1 sol :=
      ac3_support hsol (seedQueue_none_mem c) hs0 hac3
    have hfuel : solveFuel c ≥ unCount c [] + 1 := by
      unfold solveFuel
      have := unCount_le c ([] : Assn)
      omega
    obtain ⟨r, d2, hbt⟩ := backtrackF_completes hnd hsol (solveFuel c) [] d1
      (KeysOK_nil c) (fun p hp => by cases hp) hs1 hfuel
    have hsound := backtrack_sound_aux (solveFuel c) [] d1 r d2 (KeysOK_nil c)
      (consistent_nil c) hbt
    refine ⟨r, ?_, hsound.1, hsound.2.1⟩
    have hsolve : solve c = some (some r, d2) := by
      have hgoal : (match ac3 c (enforce_node_consistency c (initialDomains c)) none with
          | none => (none : Option (Option Assn × Domains))
          | some (d1, _) => backtrackF c (solveFuel c) d1 []) = some (some r, d2) := by
        rw [hac3]
        exact hbt
      exact hgoal
    unfold solveAssignment
    rw [hsolve]
    rfl

theorem solve_completeness_witness :
    cxCar.vars.Nodup ∧ IsSolution cxCar solCar ∧
      ∃ r, solveAssignment cxCar = some (some r) ∧
        assignment_complete cxCar r = true ∧ consistent cxCar r = true :=
  ⟨by decide, by unfold IsSolution; decide,
    solve_completeness (by decide) ⟨solCar, by unfold IsSolution; decide⟩⟩

/-- C3: any assignment returned by `solve` assigns a word to every slot, of
exactly the slot's length, with all assigned words pairwise distinct, and
with agreement at the overlap offsets of every neighboring pair. -/
theorem solve_soundness {c : Crossword} {r : Assn}
    (h : solveAssignment c = some (some r)) :
    (∀ v ∈ c.vars, ∃ w, alookup r v = some w) ∧
    (∀ v w, alookup r v = some w → w.length = c.length v) ∧
    (∀ v1 w1 v2 w2, alookup r v1 = some w1 → alookup r v2 = some w2 →
      v1 ≠ v2 → w1 ≠ w2) ∧
    (∀ x y i j wx wy, y ∈ neighbors c x → c.overlaps x y = some (i, j) →
      alookup r x = some wx → alookup r y = some wy →
      charAt wx i = charAt wy j) := by
  unfold solveAssignment at h
  rcases hs : solve c with _ | ⟨res, d2⟩
  · rw [hs] at h
    cases h
  · rw [hs] at h
    have hres : res = some r := by
      simpa using h
    subst hres
    obtain ⟨d1, b1, hac3, hbt⟩ := solve_eq hs
    obtain ⟨hcomp, hcons, hk⟩ := backtrack_sound_aux (solveFuel c) [] d1 r d2
      (KeysOK_nil c) (consistent_nil c) hbt
    have hcons2 := consistent_iff.mp hcons
    refine ⟨complete_assigns hk hcomp, ?_, ?_, ?_⟩
    · intro v w hvw
      exact ((hcons2.2 (v, w) (alookup_mem hvw)).1).symm
    · intro v1 w1 v2 w2 h1 h2 hne heq
      have hpair := values_nodup_inj r hcons2.1 (v1, w1) (alookup_mem h1)
        (v2, w2) (alookup_mem h2) (by simpa using heq)
      exact hne (congrArg Prod.fst hpair)
    · intro x y i j wx wy hy ho hx hyl
      exact ((hcons2.2 (x, wx) (alookup_mem hx)).2 y hy i j ho wy hyl).symm

theorem solve_soundness_witness :
    solveAssignment cxCar = some (some rCar) ∧
      (∀ v ∈ cxCar.vars, ∃ w, alookup rCar v = some w) :=
  ⟨by decide, (solve_soundness (by decide)).1⟩
